import Mathlib

/-!  Verification development for the GoogleDoc question-answering server
(`server.cjs`).  The embedding is shallow: document text is modelled as
`List Char`, the Google Docs / OpenAI network calls are modelled as oracle
functions passed in as parameters, and every function of the source that the
claims mention is translated to an executable Lean definition. -/

namespace GDoc

/-- Characters matched by the JavaScript regular-expression class `\s`
(also the set removed by `String.prototype.trim`). -/
def jsIsSpace (c : Char) : Bool :=
  c = '\t' || c = '\n' || c = '\x0b' || c = '\x0c' || c = '\r' || c = ' ' ||
    c = '\u00A0' || c = '\u1680' ||
    (decide (0x2000 ≤ c.toNat) && decide (c.toNat ≤ 0x200A)) ||
    c = '\u2028' || c = '\u2029' || c = '\u202F' || c = '\u205F' ||
    c = '\u3000' || c = '\uFEFF'

/-- The punctuation class `[.,!?;:]` used by `normalizeText` and by the
trailing-punctuation stripping in `parseQuestions`. -/
def isPunct (c : Char) : Bool :=
  c = '.' || c = ',' || c = '!' || c = '?' || c = ';' || c = ':'

/-- Embedding of JavaScript `String.prototype.toLowerCase` on the basic
Latin range (the only mapping exercised by the server's ASCII data). -/
def jsToLower (c : Char) : Char :=
  if 65 ≤ c.toNat ∧ c.toNat ≤ 90 then Char.ofNat (c.toNat + 32) else c

/-- One pass of `.replace(/\s+/g, ' ')`: each maximal run of whitespace
characters is replaced by a single space.  The Boolean argument records
whether the scanner is currently inside a whitespace run. -/
def collapseWS : Bool → List Char → List Char
  | _, [] => []
  | true, c :: cs =>
    if jsIsSpace c then collapseWS true cs else c :: collapseWS false cs
  | false, c :: cs =>
    if jsIsSpace c then ' ' :: collapseWS true cs else c :: collapseWS false cs

/-- Embedding of JavaScript `String.prototype.trim`: drop whitespace from
both ends. -/
def jsTrim (l : List Char) : List Char :=
  ((l.dropWhile jsIsSpace).reverse.dropWhile jsIsSpace).reverse

/-- Embedding of `normalizeText` (server.cjs, lines 1017-1023): lowercase,
remove the punctuation class, collapse whitespace runs to single spaces,
trim. -/
def normalizeText (s : List Char) : List Char :=
  jsTrim (collapseWS false (List.filter (fun c => !(isPunct c)) (s.map jsToLower)))

/-- A list of characters in which every whitespace character is a plain
space and no two whitespace characters are adjacent: the shape produced by
`collapseWS`. -/
def SpacedOK (l : List Char) : Prop :=
  (∀ c ∈ l, jsIsSpace c = true → c = ' ') ∧
    List.Chain' (fun a b => ¬(jsIsSpace a = true ∧ jsIsSpace b = true)) l

theorem toNat_ofNat_valid (n : Nat) (h : n.isValidChar) :
    (Char.ofNat n).toNat = n := by
  unfold Char.ofNat
  rw [dif_pos h]
  rfl

theorem jsToLower_fix (c : Char) : jsToLower (jsToLower c) = jsToLower c := by
  unfold jsToLower
  by_cases h : 65 ≤ c.toNat ∧ c.toNat ≤ 90
  · rw [if_pos h]
    have hv : Nat.isValidChar (c.toNat + 32) := Or.inl (by omega)
    rw [toNat_ofNat_valid _ hv, if_neg (by omega)]
  · rw [if_neg h, if_neg h]

theorem mem_collapseWS {c : Char} :
    ∀ (b : Bool) (l : List Char), c ∈ collapseWS b l → c = ' ' ∨ c ∈ l := by
  intro b l
  induction l generalizing b with
  | nil => cases b <;> simp [collapseWS]
  | cons d ds ih =>
    intro hmem
    cases b with
    | true =>
      rw [collapseWS] at hmem
      by_cases hd : jsIsSpace d
      · rw [if_pos hd] at hmem
        rcases ih true hmem with h | h
        · exact Or.inl h
        · exact Or.inr (List.mem_cons_of_mem _ h)
      · rw [if_neg hd] at hmem
        rcases List.mem_cons.mp hmem with h | h
        · exact Or.inr (h ▸ List.mem_cons_self _ _)
        · rcases ih false h with h' | h'
          · exact Or.inl h'
          · exact Or.inr (List.mem_cons_of_mem _ h')
    | false =>
      rw [collapseWS] at hmem
      by_cases hd : jsIsSpace d
      · rw [if_pos hd] at hmem
        rcases List.mem_cons.mp hmem with h | h
        · exact Or.inl h
        · rcases ih true h with h' | h'
          · exact Or.inl h'
          · exact Or.inr (List.mem_cons_of_mem _ h')
      · rw [if_neg hd] at hmem
        rcases List.mem_cons.mp hmem with h | h
        · exact Or.inr (h ▸ List.mem_cons_self _ _)
        · rcases ih false h with h' | h'
          · exact Or.inl h'
          · exact Or.inr (List.mem_cons_of_mem _ h')

theorem collapseWS_spaces :
    ∀ (b : Bool) (l : List Char), ∀ c ∈ collapseWS b l,
      jsIsSpace c = true → c = ' ' := by
  intro b l
  induction l generalizing b with
  | nil => cases b <;> simp [collapseWS]
  | cons d ds ih =>
    intro c hmem hsp
    cases b with
    | true =>
      rw [collapseWS] at hmem
      by_cases hd : jsIsSpace d
      · rw [if_pos hd] at hmem
        exact ih true c hmem hsp
      · rw [if_neg hd] at hmem
        rcases List.mem_cons.mp hmem with h | h
        · exact absurd (h ▸ hsp) (by simpa using hd)
        · exact ih false c h hsp
    | false =>
      rw [collapseWS] at hmem
      by_cases hd : jsIsSpace d
      · rw [if_pos hd] at hmem
        rcases List.mem_cons.mp hmem with h | h
        · exact h
        · exact ih true c h hsp
      · rw [if_neg hd] at hmem
        rcases List.mem_cons.mp hmem with h | h
        · exact absurd (h ▸ hsp) (by simpa using hd)
        · exact ih false c h hsp

theorem collapseWS_true_head :
    ∀ (l : List Char) (c : Char),
      (collapseWS true l).head? = some c → jsIsSpace c = false := by
  intro l
  induction l with
  | nil => intro c h; simp [collapseWS] at h
  | cons d ds ih =>
    intro c h
    rw [collapseWS] at h
    by_cases hd : jsIsSpace d
    · rw [if_pos hd] at h
      exact ih c h
    · rw [if_neg hd] at h
      simp only [List.head?_cons, Option.some.injEq] at h
      subst h
      simpa using hd

theorem collapseWS_chain :
    ∀ (b : Bool) (l : List Char),
      List.Chain' (fun a b => ¬(jsIsSpace a = true ∧ jsIsSpace b = true))
        (collapseWS b l) := by
  intro b l
  induction l generalizing b with
  | nil => cases b <;> simp [collapseWS]
  | cons d ds ih =>
    cases b with
    | true =>
      rw [collapseWS]
      by_cases hd : jsIsSpace d
      · rw [if_pos hd]; exact ih true
      · rw [if_neg hd]
        refine List.chain'_cons'.mpr ⟨?_, ih false⟩
        intro y _
        intro hcon
        exact absurd hcon.1 (by simpa using hd)
    | false =>
      rw [collapseWS]
      by_cases hd : jsIsSpace d
      · rw [if_pos hd]
        refine List.chain'_cons'.mpr ⟨?_, ih true⟩
        intro y hy
        intro hcon
        have := collapseWS_true_head ds y hy
        rw [this] at hcon
        exact Bool.false_ne_true hcon.2
      · rw [if_neg hd]
        refine List.chain'_cons'.mpr ⟨?_, ih false⟩
        intro y _
        intro hcon
        exact absurd hcon.1 (by simpa using hd)

theorem collapseWS_spacedOK (b : Bool) (l : List Char) :
    SpacedOK (collapseWS b l) :=
  ⟨collapseWS_spaces b l, collapseWS_chain b l⟩

theorem collapseWS_eq_self :
    ∀ (l : List Char), SpacedOK l →
      collapseWS false l = l ∧
        ((∀ c, l.head? = some c → jsIsSpace c = false) →
          collapseWS true l = l) := by
  intro l
  induction l with
  | nil => exact fun _ => ⟨rfl, fun _ => rfl⟩
  | cons d ds ih =>
    intro hok
    obtain ⟨hsp, hch⟩ := hok
    have hch' := List.chain'_cons'.mp hch
    have hds : SpacedOK ds :=
      ⟨fun c hc => hsp c (List.mem_cons_of_mem _ hc), hch'.2⟩
    obtain ⟨ih1, ih2⟩ := ih hds
    constructor
    · rw [collapseWS]
      by_cases hd : jsIsSpace d
      · rw [if_pos hd]
        have hd' : d = ' ' := hsp d (List.mem_cons_self _ _) hd
        have hdt : collapseWS true ds = ds := by
          apply ih2
          intro c hc
          have := hch'.1 c hc
          by_contra hcs
          exact this ⟨hd, by simpa using hcs⟩
        rw [hdt, hd']
      · rw [if_neg hd, ih1]
    · intro hhead
      rw [collapseWS]
      have hd : jsIsSpace d = false := hhead d rfl
      rw [if_neg (by simp [hd]), ih1]

theorem spacedOK_within {l m : List Char} (h : SpacedOK l) (hm : m <:+: l) :
    SpacedOK m :=
  ⟨fun c hc hs => h.1 c (hm.subset hc) hs, List.Chain'.infix h.2 hm⟩

theorem dropWhile_head_not (p : Char → Bool) (l : List Char) :
    ∀ c, (l.dropWhile p).head? = some c → p c = false := by
  induction l with
  | nil => intro c h; simp at h
  | cons d ds ih =>
    intro c h
    rw [List.dropWhile_cons] at h
    by_cases hd : p d
    · rw [if_pos hd] at h
      exact ih c h
    · rw [if_neg hd] at h
      simp only [List.head?_cons, Option.some.injEq] at h
      subst h
      simpa using hd

theorem jsTrim_within (l : List Char) : jsTrim l <:+: l := by
  unfold jsTrim
  have h1 : l.dropWhile jsIsSpace <:+ l := List.dropWhile_suffix _
  have h2 : (l.dropWhile jsIsSpace).reverse.dropWhile jsIsSpace <:+
      (l.dropWhile jsIsSpace).reverse := List.dropWhile_suffix _
  have h3 : ((l.dropWhile jsIsSpace).reverse.dropWhile jsIsSpace).reverse <+:
      (l.dropWhile jsIsSpace).reverse.reverse := List.reverse_prefix.mpr h2
  rw [List.reverse_reverse] at h3
  exact h3.isInfix.trans h1.isInfix

theorem jsTrim_head (l : List Char) :
    ∀ c, (jsTrim l).head? = some c → jsIsSpace c = false := by
  intro c hc
  unfold jsTrim at hc
  have h2 : (l.dropWhile jsIsSpace).reverse.dropWhile jsIsSpace <:+
      (l.dropWhile jsIsSpace).reverse := List.dropWhile_suffix _
  have h3 : ((l.dropWhile jsIsSpace).reverse.dropWhile jsIsSpace).reverse <+:
      (l.dropWhile jsIsSpace).reverse.reverse := List.reverse_prefix.mpr h2
  rw [List.reverse_reverse] at h3
  obtain ⟨t, ht⟩ := h3
  cases he : ((l.dropWhile jsIsSpace).reverse.dropWhile jsIsSpace).reverse with
  | nil => rw [he] at hc; simp at hc
  | cons x xs =>
    rw [he] at hc
    simp only [List.head?_cons, Option.some.injEq] at hc
    subst hc
    have hx : (l.dropWhile jsIsSpace).head? = some x := by
      rw [← ht, he]
      rfl
    exact dropWhile_head_not jsIsSpace l x hx

theorem jsTrim_getLast (l : List Char) :
    ∀ c, (jsTrim l).getLast? = some c → jsIsSpace c = false := by
  intro c hc
  unfold jsTrim at hc
  rw [List.getLast?_reverse] at hc
  exact dropWhile_head_not jsIsSpace _ c hc

theorem jsTrim_eq_self {l : List Char}
    (h1 : ∀ c, l.head? = some c → jsIsSpace c = false)
    (h2 : ∀ c, l.getLast? = some c → jsIsSpace c = false) :
    jsTrim l = l := by
  have hd : l.dropWhile jsIsSpace = l := by
    cases l with
    | nil => rfl
    | cons x xs =>
      have hx : jsIsSpace x = false := h1 x rfl
      rw [List.dropWhile_cons, if_neg (by simp [hx])]
  unfold jsTrim
  rw [hd]
  have hr : l.reverse.dropWhile jsIsSpace = l.reverse := by
    cases hl : l.reverse with
    | nil => rfl
    | cons x xs =>
      have hlast : l.getLast? = some x := by
        rw [← List.head?_reverse, hl, List.head?_cons]
      have hx : jsIsSpace x = false := h2 x hlast
      rw [List.dropWhile_cons, if_neg (by simp [hx])]
  rw [hr, List.reverse_reverse]

theorem map_id_of_fix {f : Char → Char} :
    ∀ (l : List Char), (∀ c ∈ l, f c = c) → l.map f = l := by
  intro l
  induction l with
  | nil => intro _; rfl
  | cons d ds ih =>
    intro h
    rw [List.map_cons, h d (List.mem_cons_self _ _),
      ih (fun c hc => h c (List.mem_cons_of_mem _ hc))]

theorem normalizeText_chars (s : List Char) :
    ∀ c ∈ normalizeText s, jsToLower c = c ∧ isPunct c = false := by
  intro c hc
  unfold normalizeText at hc
  have hz : c ∈ collapseWS false
      (List.filter (fun c => !(isPunct c)) (s.map jsToLower)) :=
    (jsTrim_within _).subset hc
  rcases mem_collapseWS _ _ hz with h | h
  · subst h
    exact ⟨by decide, by decide⟩
  · have hf := List.mem_filter.mp h
    obtain ⟨a, _, ha⟩ := List.mem_map.mp hf.1
    constructor
    · rw [← ha]; exact jsToLower_fix a
    · simpa using hf.2

/-- C10: `normalizeText` is idempotent: applying it a second time changes
nothing. -/
theorem normalizeText_idem (s : List Char) :
    normalizeText (normalizeText s) = normalizeText s := by
  have hchars := normalizeText_chars s
  have hmap : (normalizeText s).map jsToLower = normalizeText s :=
    map_id_of_fix _ (fun c hc => (hchars c hc).1)
  have hfil : List.filter (fun c => !(isPunct c)) (normalizeText s) =
      normalizeText s := by
    rw [List.filter_eq_self]
    intro c hc
    simp [(hchars c hc).2]
  have hok : SpacedOK (normalizeText s) := by
    unfold normalizeText
    exact spacedOK_within (collapseWS_spacedOK false _) (jsTrim_within _)
  have hcol : collapseWS false (normalizeText s) = normalizeText s :=
    (collapseWS_eq_self _ hok).1
  have htrim : jsTrim (normalizeText s) = normalizeText s := by
    refine jsTrim_eq_self ?_ ?_
    · intro c hc
      exact jsTrim_head
        (collapseWS false (List.filter (fun c => !(isPunct c)) (s.map jsToLower))) c hc
    · intro c hc
      exact jsTrim_getLast
        (collapseWS false (List.filter (fun c => !(isPunct c)) (s.map jsToLower))) c hc
  calc normalizeText (normalizeText s)
      = jsTrim (collapseWS false (List.filter (fun c => !(isPunct c))
          ((normalizeText s).map jsToLower))) := rfl
    _ = jsTrim (collapseWS false (normalizeText s)) := by rw [hmap, hfil]
    _ = jsTrim (normalizeText s) := by rw [hcol]
    _ = normalizeText s := htrim

/-- Convert a Lean string literal to the character-list representation used
throughout the embedding. -/
def str (s : String) : List Char := s.data

/-- One column step of the Levenshtein dynamic-programming row update
(server.cjs 944-957): `diag` is the entry above-left, `above` the entry
above, `left` the entry just written.  Matching characters copy the
diagonal, otherwise one plus the minimum of the three neighbours. -/
def levRowAux (bc : Char) : List Char → List Nat → Nat → List Nat
  | [], _, _ => []
  | _ :: _, [], _ => []
  | _ :: _, [_], _ => []
  | ac :: as, diag :: above :: rest, left =>
    let cur := if ac = bc then diag else 1 + min above (min left diag)
    cur :: levRowAux bc as (above :: rest) cur

/-- Row-by-row computation of the Levenshtein matrix of server.cjs 929-960:
one row per character of `b`, starting from the row `0..a.length`. -/
def levFold (a : List Char) : List Char → List Nat → List Nat
  | [], row => row
  | bc :: bs, row =>
    let row0 := match row with | [] => 1 | r0 :: _ => r0 + 1
    levFold a bs (row0 :: levRowAux bc a row row0)

/-- Embedding of `getLevenshteinDistance` (server.cjs 929-960): early
returns for an empty argument, otherwise the bottom-right entry of the
dynamic-programming matrix. -/
def getLevenshteinDistance (a b : List Char) : Nat :=
  if a.length = 0 then b.length
  else if b.length = 0 then a.length
  else ((levFold a b (List.range (a.length + 1))).getLast?).getD 0

/-- Decides whether `l` begins with the pattern `p` (JS `startsWith`). -/
def startsWithL : List Char → List Char → Bool
  | [], _ => true
  | _ :: _, [] => false
  | p :: ps, c :: cs => decide (p = c) && startsWithL ps cs

/-- Decides whether `n` occurs contiguously inside `l` (JS `includes`). -/
def containsSub (l n : List Char) : Bool :=
  l.tails.any (fun t => startsWithL n t)

/-- JS `answerText.split(' ')`: split on every single space character,
keeping empty pieces. -/
def splitSpace : List Char → List (List Char)
  | [] => [[]]
  | c :: cs =>
    match splitSpace cs with
    | [] => [[]]
    | w :: ws => if c = ' ' then [] :: w :: ws else (c :: w) :: ws

/-- JS `words.join(' ')`. -/
def joinSpace : List (List Char) → List Char
  | [] => []
  | [w] => w
  | w :: ws => w ++ ' ' :: joinSpace ws

/-- The chunking of `simulateTypingAndInsert` (server.cjs 1277-1278): take
the words five at a time, join each batch with single spaces and append one
trailing space. -/
def chunkWords : List (List Char) → List (List Char)
  | [] => []
  | [w1] => [joinSpace [w1] ++ [' ']]
  | [w1, w2] => [joinSpace [w1, w2] ++ [' ']]
  | [w1, w2, w3] => [joinSpace [w1, w2, w3] ++ [' ']]
  | [w1, w2, w3, w4] => [joinSpace [w1, w2, w3, w4] ++ [' ']]
  | w1 :: w2 :: w3 :: w4 :: w5 :: rest =>
    (joinSpace [w1, w2, w3, w4, w5] ++ [' ']) :: chunkWords rest

/-- A text run of the Google Docs document model. -/
structure TextRun where
  content : List Char
deriving DecidableEq

/-- A paragraph element: either a text run or some other inline object. -/
structure ParaElement where
  textRun : Option TextRun
deriving DecidableEq

/-- A paragraph: its elements plus the (possibly absent) index fields the
code reads off the paragraph object. -/
structure Paragraph where
  elements : List ParaElement
  startIndex : Option Int
  endIndex : Option Int
deriving DecidableEq

/-- A structural element of the document body: a paragraph or a non-text
block (table, image), carrying the structural `endIndex`. -/
structure StructuralElement where
  paragraph : Option Paragraph
  endIndex : Option Int
deriving DecidableEq

/-- Concatenated run text of a paragraph: the elements are filtered to text
runs with non-empty content (the JS truthiness test on
`el.textRun && el.textRun.content`) and their contents joined. -/
def concatRuns (p : Paragraph) : List Char :=
  (p.elements.filterMap (fun el =>
    match el.textRun with
    | some tr => if tr.content = [] then none else some tr.content
    | none => none)).flatten

/-- Embedding of `isQuestionAnswered` (server.cjs 1031-1053): walk to the
first element whose `endIndex` equals the question's `endIndex`; if it is a
paragraph, look at the immediately following element, and return whether
that element is a paragraph whose trimmed run text starts with `Answer:`;
in every other case return `false`. -/
def isQuestionAnswered : List StructuralElement → Int → Bool
  | [], _ => false
  | e :: rest, off =>
    if e.endIndex = some off then
      match e.paragraph with
      | none => false
      | some _ =>
        match rest.head? with
        | some next =>
          match next.paragraph with
          | some p => startsWithL (str "Answer:") (jsTrim (concatRuns p))
          | none => false
        | none => false
    else isQuestionAnswered rest off

/-- A located question: the paragraph text (or detected question text) and
the insertion `endIndex` associated to it. -/
structure Line where
  text : List Char
  endIndex : Int
deriving DecidableEq

/-- Embedding of the paragraph-extraction pass of the operative
`parseQuestions` (server.cjs 1060-1105): trim each paragraph's concatenated
run text, skip empty paragraphs, use the paragraph's `endIndex` field when
it is a number and otherwise fall back to `startIndex` (or `0`) plus the
text length plus one. -/
def extractLines (content : List StructuralElement) : List Line :=
  content.filterMap (fun e =>
    match e.paragraph with
    | none => none
    | some p =>
      let paraText := jsTrim (concatRuns p)
      if paraText.length = 0 then none
      else
        let endIndex :=
          match p.endIndex with
          | some n => n
          | none => p.startIndex.getD 0 + (paraText.length : Int) + 1
        some ⟨paraText, endIndex⟩)

/-- Set-based deduplication keeping the first occurrence of each element,
the semantics of JS `[...new Set(xs)]`. -/
def dedupFirst : List (List Char) → List (List Char)
  | [] => []
  | x :: xs => x :: (dedupFirst xs).filter (fun y => y ≠ x)

/-- Embedding of `detectQuestions` (server.cjs 967-1010): the OpenAI call
and the JSON parse are one oracle; on success each parsed question is
trimmed and the list deduplicated through a Set (exact string equality);
any detection or parse error yields the empty list. -/
def detectQuestions (api : List Char → Except Unit (List (List Char)))
    (documentText : List Char) : List (List Char) :=
  match api documentText with
  | .error _ => []
  | .ok qs => dedupFirst (qs.map jsTrim)

/-- JS `lines.map(line => line.text).join('\n')`, the text handed to the
question detector. -/
def joinNL : List (List Char) → List Char
  | [] => []
  | [w] => w
  | w :: ws => w ++ '\n' :: joinNL ws

/-- The maximum of the two normalized lengths, the denominator of the
similarity formula at server.cjs 1165. -/
def mLen (nq : List Char) (line : Line) : Nat :=
  max nq.length (normalizeText line.text).length

/-- The similarity the fallback computes between the normalized candidate
and one paragraph (server.cjs 1164-1166): one minus the Levenshtein
distance over the maximum length, as an exact rational. -/
def simOf (nq : List Char) (line : Line) : ℚ :=
  1 - (getLevenshteinDistance nq (normalizeText line.text) : ℚ) /
    (mLen nq line : ℚ)

/-- The fallback scan of `parseQuestions` (server.cjs 1158-1172): walk the
paragraphs keeping the highest similarity seen so far and the paragraph
attaining it.  When both normalized strings are empty JS computes NaN,
which never compares greater than the running maximum, so that case leaves
the state unchanged, exactly as the zero-denominator guard does here. -/
def bestLoop (nq : List Char) : List Line → ℚ → Option Line → ℚ × Option Line
  | [], h, b => (h, b)
  | line :: ls, h, b =>
    if mLen nq line = 0 then bestLoop nq ls h b
    else if h < simOf nq line then bestLoop nq ls (simOf nq line) (some line)
    else bestLoop nq ls h b

/-- The similarity threshold of server.cjs 1118. -/
def similarityThreshold : ℚ := 4 / 5

/-- One iteration of the candidate loop of the operative `parseQuestions`
(server.cjs 1122-1205): primary normalized-substring search over the
paragraphs, similarity fallback when that finds nothing, and the
already-answered filter.  At most one Question entry is produced per
candidate; the `endIndex` validity checks of the source are vacuous here
because extracted lines always carry an integer `endIndex`. -/
def locateOne (content : List StructuralElement) (lines : List Line)
    (question : List Char) : Option Line :=
  let normalizedQuestion := normalizeText question
  match lines.find? (fun line =>
      containsSub (normalizeText line.text) normalizedQuestion) with
  | some lq =>
    if isQuestionAnswered content lq.endIndex then none
    else some ⟨question, lq.endIndex⟩
  | none =>
    let hb := bestLoop normalizedQuestion lines 0 none
    match hb.2 with
    | some l =>
      if similarityThreshold ≤ hb.1 then
        if isQuestionAnswered content l.endIndex then none
        else some ⟨question, l.endIndex⟩
      else none
    | none => none

/-- Embedding of the operative `parseQuestions` (server.cjs 1060-1210):
extract the paragraph lines, run detection on the newline-joined text, and
locate each detected candidate. -/
def parseQuestions (api : List Char → Except Unit (List (List Char)))
    (content : List StructuralElement) : List Line :=
  let lines := extractLines content
  let detected := detectQuestions api (joinNL (lines.map (fun l => l.text)))
  detected.filterMap (locateOne content lines)

/-- One `insertText` batchUpdate call of the insertion driver: the offset
and text sent, and whether the call succeeded. -/
structure Attempt where
  offset : Int
  text : List Char
  ok : Bool
deriving DecidableEq

/-- Embedding of the chunk loop of the operative `simulateTypingAndInsert`
(server.cjs 1277-1322).  The oracle `ok` gives the outcome of each
successive batchUpdate call (`t` counts the calls made so far).  A failed
chunk is retried once, newline-prefixed, at the same offset; if the retry
also fails the loop breaks.  Returns the list of attempted calls in order
and the total characters committed. -/
def chunkLoop (ok : Nat → Bool) :
    List (List Char) → Nat → Int → List Attempt × Nat
  | [], _, _ => ([], 0)
  | c :: cs, t, idx =>
    if ok t then
      let r := chunkLoop ok cs (t + 1) (idx + c.length)
      (⟨idx, c, true⟩ :: r.1, c.length + r.2)
    else if ok (t + 1) then
      let r := chunkLoop ok cs (t + 2) (idx + c.length + 1)
      (⟨idx, c, false⟩ :: ⟨idx, '\n' :: c, true⟩ :: r.1, (c.length + 1) + r.2)
    else
      ([⟨idx, c, false⟩, ⟨idx, '\n' :: c, false⟩], 0)

/-- Embedding of the operative `simulateTypingAndInsert` (server.cjs
1264-1325): split the answer on spaces, chunk the words five at a time,
run the chunk loop.  The source's insertIndex number-validation is vacuous
here because the model's offsets are integers. -/
def simulateTypingAndInsert (ok : Nat → Bool) (insertIndex : Int)
    (answerText : List Char) : List Attempt × Nat :=
  chunkLoop ok (chunkWords (splitSpace answerText)) 0 insertIndex

/-- One completed iteration of the route's question loop: the question, the
adjusted offset actually used, the framed answer text, and the character
count reported by the insertion driver. -/
structure InsRec where
  q : Line
  offset : Int
  text : List Char
  inserted : Nat
deriving DecidableEq

/-- Embedding of the per-question processing loop of the
`/api/process/:documentId` handler (server.cjs 655-677, identical in the
second registration at 2311-2333): generate an answer (an oracle, indexed
by the iteration), skip the question when no answer comes back; compute
the adjusted insertion index, skip when it is negative; otherwise insert
the framed answer and add the inserted character count to the running
cumulative offset.  Returns the insertion records and the final
`cumulativeOffset`. -/
def processLoop (gen : Nat → List Char → Option (List Char))
    (ins : Nat → Int → List Char → Nat) :
    List Line → Nat → Int → List InsRec × Int
  | [], _, cum => ([], cum)
  | q :: qs, k, cum =>
    match gen k q.text with
    | none => processLoop gen ins qs (k + 1) cum
    | some answer =>
      let insertIndex := q.endIndex - 1 + cum
      if insertIndex < 0 then processLoop gen ins qs (k + 1) cum
      else
        let fullAnswer := str "\nAnswer: " ++ answer ++ str "\n"
        let insertedChars := ins k insertIndex fullAnswer
        let r := processLoop gen ins qs (k + 1) (cum + insertedChars)
        (⟨q, insertIndex, fullAnswer, insertedChars⟩ :: r.1, r.2)

/-- Ordering of questions by ascending `endIndex`, the comparator of the
sort at server.cjs 651/2307. -/
def endLe (a b : Line) : Prop := a.endIndex ≤ b.endIndex

instance : DecidableRel endLe := fun a b => Int.decLe a.endIndex b.endIndex

instance : IsTotal Line endLe := ⟨fun a b => Int.le_total a.endIndex b.endIndex⟩

instance : IsTrans Line endLe := ⟨fun _ _ _ h1 h2 => le_trans h1 h2⟩

/-- The stable ascending-`endIndex` sort applied to the located questions
before the processing loop. -/
def sortQuestions (qs : List Line) : List Line := List.insertionSort endLe qs

/-- A document owner as returned by the Drive metadata lookup. -/
structure Owner where
  emailAddress : List Char
deriving DecidableEq

/-- Embedding of `isDocumentOwnerApproved` (server.cjs 875-905): the Drive
metadata request is an oracle; a missing `owners` field defaults to the
empty list; approval holds when some owner's lowercased address appears
among the lowercased approved addresses; any lookup error is caught and
yields `false`. -/
def isDocumentOwnerApproved (approvedEmails : List (List Char))
    (lookup : Except Unit (Option (List Owner))) : Bool :=
  match lookup with
  | .error _ => false
  | .ok ownersOpt =>
    let owners := ownersOpt.getD []
    owners.any (fun o =>
      (approvedEmails.map (fun e => e.map jsToLower)).any
        (fun e => e = o.emailAddress.map jsToLower))

/-- HTTP-level outcome of one processing request. -/
inductive RouteOutcome
  | denied
  | serverError
  | noQuestions
  | processed
deriving DecidableEq

/-- Embedding of the operative `/api/process/:documentId` handler
(server.cjs 621-688): approval gate first, then document fetch (a fetch
error propagates to the catch-all 500), question parsing, the ascending
sort, and the processing loop.  Returns the outcome together with the
insertion records (each record is one `simulateTypingAndInsert` call) and
the final cumulative offset. -/
def processRoute (approvedEmails : List (List Char))
    (lookup : Except Unit (Option (List Owner)))
    (fetched : Except Unit (List StructuralElement))
    (api : List Char → Except Unit (List (List Char)))
    (gen : Nat → List Char → Option (List Char))
    (ins : Nat → Int → List Char → Nat) :
    RouteOutcome × List InsRec × Int :=
  if isDocumentOwnerApproved approvedEmails lookup then
    match fetched with
    | .error _ => (.serverError, [], 0)
    | .ok content =>
      let questions := parseQuestions api content
      if questions.length = 0 then (.noQuestions, [], 0)
      else
        let r := processLoop gen ins (sortQuestions questions) 0 0
        (.processed, r.1, r.2)
  else (.denied, [], 0)

/-- Translation of claim C4's existential reading: SOME block whose
`endIndex` equals the offset is a paragraph, the block following it exists
and is a paragraph, and that paragraph's trimmed run text starts with
`Answer:`. -/
def answeredSpecExists : List StructuralElement → Int → Bool
  | [], _ => false
  | [_], _ => false
  | e :: next :: rest, off =>
    (decide (e.endIndex = some off) && e.paragraph.isSome &&
        (match next.paragraph with
         | some p => startsWithL (str "Answer:") (jsTrim (concatRuns p))
         | none => false)) ||
      answeredSpecExists (next :: rest) off

/-- A content list on which the existential reading of C4 and the code
disagree: a non-paragraph block with `endIndex` 5 precedes a paragraph
block with the same `endIndex` whose successor is an `Answer:` paragraph. -/
def contentC4 : List StructuralElement :=
  [⟨none, some 5⟩,
    ⟨some ⟨[⟨some ⟨str "Riddle?\n"⟩⟩], none, none⟩, some 5⟩,
    ⟨some ⟨[⟨some ⟨str "Answer: yes\n"⟩⟩], none, none⟩, some 9⟩]

/-- C4 counterexample: on `contentC4` at offset 5 some block satisfies all
the conditions of the claim, yet `isQuestionAnswered` returns `false`,
because the first block with `endIndex` 5 is not a paragraph. -/
theorem C4_counterexample :
    answeredSpecExists contentC4 5 = true ∧
      isQuestionAnswered contentC4 5 = false := by decide

/-- C4 (amended): `isQuestionAnswered` returns `true` exactly when the
FIRST block whose `endIndex` equals the offset is a paragraph, the next
block exists and is a paragraph, and that next paragraph's concatenated
run text, trimmed, starts with the literal `Answer:`; in particular it is
`false` when no block matches the offset or there is no following block. -/
theorem C4_answered_iff_first (content : List StructuralElement) (off : Int) :
    isQuestionAnswered content off = true ↔
      ∃ i e next p,
        content.findIdx? (fun e => decide (e.endIndex = some off)) = some i ∧
        content[i]? = some e ∧ e.paragraph.isSome = true ∧
        content[i + 1]? = some next ∧ next.paragraph = some p ∧
        startsWithL (str "Answer:") (jsTrim (concatRuns p)) = true := by
  induction content with
  | nil => simp [isQuestionAnswered]
  | cons e rest ih =>
    by_cases he : e.endIndex = some off
    · rw [isQuestionAnswered, if_pos he]
      have hf : (e :: rest).findIdx?
          (fun e => decide (e.endIndex = some off)) = some 0 := by
        rw [List.findIdx?_cons, if_pos (by simp [he])]
      constructor
      · intro hmain
        refine ⟨0, e, ?_⟩
        match hp : e.paragraph with
        | none => simp [hp] at hmain
        | some q =>
          simp only [hp] at hmain
          match hh : rest.head? with
          | none => simp [hh] at hmain
          | some next =>
            simp only [hh] at hmain
            match hnp : next.paragraph with
            | none => simp [hnp] at hmain
            | some p =>
              simp only [hnp] at hmain
              refine ⟨next, p, hf, by simp, by simp [hp], ?_, hnp, hmain⟩
              rw [List.getElem?_cons_succ, ← List.head?_eq_getElem?, hh]
      · rintro ⟨i, a, next, p, hfi, hget, hpar, hnext, hnp, hsw⟩
        rw [hf] at hfi
        injection hfi with hi0
        subst hi0
        simp only [List.getElem?_cons_zero, Option.some.injEq] at hget
        subst hget
        match hp : e.paragraph with
        | none => rw [hp] at hpar; exact absurd hpar (by simp)
        | some q =>
          have hh : rest.head? = some next := by
            rw [List.head?_eq_getElem?]
            simpa using hnext
          simp only [hp, hh, hnp]
          exact hsw
    · rw [isQuestionAnswered, if_neg he, ih]
      have hf : (e :: rest).findIdx? (fun e => decide (e.endIndex = some off)) =
          (rest.findIdx? (fun e => decide (e.endIndex = some off))).map
            (fun k => k + 1) := by
        rw [List.findIdx?_cons, if_neg (by simp [he]), List.findIdx?_succ]
      constructor
      · rintro ⟨i, a, next, p, hfi, hget, hpar, hnext, hnp, hsw⟩
        refine ⟨i + 1, a, next, p, ?_, ?_, hpar, ?_, hnp, hsw⟩
        · rw [hf, hfi]; rfl
        · simpa using hget
        · simpa using hnext
      · rintro ⟨i, a, next, p, hfi, hget, hpar, hnext, hnp, hsw⟩
        rw [hf] at hfi
        match hr : rest.findIdx? (fun e => decide (e.endIndex = some off)) with
        | none => rw [hr] at hfi; exact absurd hfi (by simp)
        | some j =>
          rw [hr] at hfi
          simp only [Option.map_some', Option.some.injEq] at hfi
          subst hfi
          refine ⟨j, a, next, p, hr, ?_, hpar, ?_, hnp, hsw⟩
          · simpa using hget
          · simpa using hnext

/-- The deduplicated trimmed detection output contains no two equal
entries. -/
theorem dedupFirst_nodup : ∀ l : List (List Char), (dedupFirst l).Nodup := by
  intro l
  induction l with
  | nil => exact List.nodup_nil
  | cons x xs ih =>
    rw [dedupFirst]
    refine List.nodup_cons.mpr ⟨?_, ih.filter _⟩
    intro hx
    have := (List.mem_filter.mp hx).2
    simp at this

theorem mem_dedupFirst_of_mem :
    ∀ (l : List (List Char)) (a : List Char), a ∈ l → a ∈ dedupFirst l := by
  intro l
  induction l with
  | nil => intro a ha; exact absurd ha (List.not_mem_nil a)
  | cons x xs ih =>
    intro a ha
    rw [dedupFirst]
    rcases List.mem_cons.mp ha with h | h
    · exact h ▸ List.mem_cons_self _ _
    · by_cases hax : a = x
      · exact hax ▸ List.mem_cons_self _ _
      · exact List.mem_cons_of_mem _
          (List.mem_filter.mpr ⟨ih a h, by simp [hax]⟩)

theorem mem_of_mem_dedupFirst :
    ∀ (l : List (List Char)) (a : List Char), a ∈ dedupFirst l → a ∈ l := by
  intro l
  induction l with
  | nil => intro a ha; exact absurd ha (List.not_mem_nil a)
  | cons x xs ih =>
    intro a ha
    rw [dedupFirst] at ha
    rcases List.mem_cons.mp ha with h | h
    · exact h ▸ List.mem_cons_self _ _
    · exact List.mem_cons_of_mem _ (ih a (List.mem_filter.mp h).1)

/-- C5 counterexample: the candidates `A?` and `a?` have equal normalized
forms (lowercase, punctuation stripped, whitespace collapsed), yet both
survive the deduplication in `detectQuestions`: the code deduplicates by
exact equality of trimmed strings, not by normalized form. -/
theorem C5_counterexample :
    normalizeText (str "A?") = normalizeText (str "a?") ∧
      detectQuestions (fun _ => .ok [str "A?", str "a?"]) [] =
        [str "A?", str "a?"] := by decide

/-- C5 (amended): before further processing the candidate questions are
deduplicated by EXACT string equality after trimming leading and trailing
whitespace: the surviving list has no duplicates, every candidate's
trimmed form survives, and every survivor is the trimmed form of some
candidate.  Candidates that differ only in case, internal whitespace or
punctuation are NOT identified. -/
theorem C5_dedup_by_trimmed_equality (qs : List (List Char))
    (text : List Char) :
    (detectQuestions (fun _ => .ok qs) text).Nodup ∧
      (∀ q ∈ qs, jsTrim q ∈ detectQuestions (fun _ => .ok qs) text) ∧
      (∀ r ∈ detectQuestions (fun _ => .ok qs) text, ∃ q ∈ qs, r = jsTrim q) := by
  refine ⟨dedupFirst_nodup _, ?_, ?_⟩
  · intro q hq
    exact mem_dedupFirst_of_mem _ _ (List.mem_map_of_mem jsTrim hq)
  · intro r hr
    have := mem_of_mem_dedupFirst _ _ hr
    obtain ⟨q, hq, hrq⟩ := List.mem_map.mp this
    exact ⟨q, hq, hrq.symm⟩

/-- C5 witness: the amended dedup theorem applied to the counterexample
candidates. -/
theorem C5_witness :
    (str "A?") ∈ [str "A?", str "a?"] ∧
      jsTrim (str "A?") ∈ detectQuestions
        (fun _ => .ok [str "A?", str "a?"]) [] :=
  ⟨by decide,
    (C5_dedup_by_trimmed_equality [str "A?", str "a?"] []).2.1
      (str "A?") (by decide)⟩

theorem bestLoop_fst_mono (nq : List Char) :
    ∀ (ls : List Line) (h : ℚ) (b : Option Line), h ≤ (bestLoop nq ls h b).1 := by
  intro ls
  induction ls with
  | nil => intro h b; exact le_refl h
  | cons line ls ih =>
    intro h b
    rw [bestLoop]
    by_cases hm : mLen nq line = 0
    · rw [if_pos hm]; exact ih h b
    · rw [if_neg hm]
      by_cases hlt : h < simOf nq line
      · rw [if_pos hlt]
        exact le_trans (le_of_lt hlt) (ih _ _)
      · rw [if_neg hlt]; exact ih h b

theorem bestLoop_ub (nq : List Char) :
    ∀ (ls : List Line) (h : ℚ) (b : Option Line) (l : Line), l ∈ ls →
      mLen nq l ≠ 0 → simOf nq l ≤ (bestLoop nq ls h b).1 := by
  intro ls
  induction ls with
  | nil => intro h b l hl; exact absurd hl (List.not_mem_nil l)
  | cons line ls ih =>
    intro h b l hl hm0
    rw [bestLoop]
    rcases List.mem_cons.mp hl with hll | hll
    · subst hll
      rw [if_neg hm0]
      by_cases hlt : h < simOf nq l
      · rw [if_pos hlt]
        exact bestLoop_fst_mono nq ls _ _
      · rw [if_neg hlt]
        exact le_trans (not_lt.mp hlt) (bestLoop_fst_mono nq ls h b)
    · by_cases hm : mLen nq line = 0
      · rw [if_pos hm]; exact ih h b l hll hm0
      · rw [if_neg hm]
        by_cases hlt : h < simOf nq line
        · rw [if_pos hlt]; exact ih _ _ l hll hm0
        · rw [if_neg hlt]; exact ih h b l hll hm0

theorem bestLoop_attained (nq : List Char) :
    ∀ (ls : List Line) (h : ℚ) (b : Option Line),
      bestLoop nq ls h b = (h, b) ∨
        ∃ l, l ∈ ls ∧ mLen nq l ≠ 0 ∧
          bestLoop nq ls h b = (simOf nq l, some l) := by
  intro ls
  induction ls with
  | nil => intro h b; exact Or.inl rfl
  | cons line ls ih =>
    intro h b
    rw [bestLoop]
    by_cases hm : mLen nq line = 0
    · rw [if_pos hm]
      rcases ih h b with hc | ⟨l, hl, hml, hc⟩
      · exact Or.inl hc
      · exact Or.inr ⟨l, List.mem_cons_of_mem _ hl, hml, hc⟩
    · rw [if_neg hm]
      by_cases hlt : h < simOf nq line
      · rw [if_pos hlt]
        rcases ih (simOf nq line) (some line) with hc | ⟨l, hl, hml, hc⟩
        · exact Or.inr ⟨line, List.mem_cons_self _ _, hm, hc⟩
        · exact Or.inr ⟨l, List.mem_cons_of_mem _ hl, hml, hc⟩
      · rw [if_neg hlt]
        rcases ih h b with hc | ⟨l, hl, hml, hc⟩
        · exact Or.inl hc
        · exact Or.inr ⟨l, List.mem_cons_of_mem _ hl, hml, hc⟩

/-- C6 (amended): for a candidate whose primary normalized-substring
search finds no paragraph, the fallback computes similarity one minus
Levenshtein distance over maximum normalized length per paragraph; the
candidate is excluded whenever every paragraph's similarity is below the
0.8 threshold; it is resolved to the best-scoring paragraph exactly when
the kept similarity reaches 0.8 AND that paragraph's offset is not
already answered (the merged answered filter of the code path — without
that extra condition the original claim fails, see the counterexample);
and the kept similarity dominates every paragraph's well-defined
similarity. -/
theorem C6_fallback_similarity (content : List StructuralElement)
    (lines : List Line) (q : List Char)
    (hnone : lines.find? (fun line =>
      containsSub (normalizeText line.text) (normalizeText q)) = none) :
    ((∀ l ∈ lines, mLen (normalizeText q) l ≠ 0 →
        simOf (normalizeText q) l < similarityThreshold) →
      locateOne content lines q = none) ∧
    (∀ l, (bestLoop (normalizeText q) lines 0 none).2 = some l →
      similarityThreshold ≤ (bestLoop (normalizeText q) lines 0 none).1 →
      isQuestionAnswered content l.endIndex = false →
      locateOne content lines q = some ⟨q, l.endIndex⟩) ∧
    (∀ l ∈ lines, mLen (normalizeText q) l ≠ 0 →
      simOf (normalizeText q) l ≤ (bestLoop (normalizeText q) lines 0 none).1) := by
  refine ⟨?_, ?_, ?_⟩
  · intro hall
    simp only [locateOne, hnone]
    rcases bestLoop_attained (normalizeText q) lines 0 none
      with hcase | ⟨l, hl, hml, hcase⟩
    · simp only [hcase]
    · simp only [hcase]
      rw [if_neg (not_le.mpr (hall l hl hml))]
  · intro l h2 hth hans
    simp only [locateOne, hnone, h2]
    rw [if_pos hth]
    simp [hans]
  · intro l hl hml
    exact bestLoop_ub (normalizeText q) lines 0 none l hl hml

/-- The single-paragraph line of the C6 witness document. -/
def lineC6 : Line := ⟨str "abcde?", 9⟩

/-- A one-paragraph document whose text is near, but not containing, the
C6 witness candidate. -/
def contentC6 : List StructuralElement :=
  [⟨some ⟨[⟨some ⟨str "abcde?\n"⟩⟩], some 1, some 9⟩, some 9⟩]

/-- C6 witness: the candidate `abcdx?` has no substring match in the
witness document, its best fallback similarity against `abcde?` is exactly
4/5, and the fallback of `locateOne` therefore resolves it to the witness
paragraph's offset, by the C6 theorem. -/
theorem C6_witness :
    (extractLines contentC6).find? (fun line =>
      containsSub (normalizeText line.text) (normalizeText (str "abcdx?"))) = none ∧
    (bestLoop (normalizeText (str "abcdx?")) (extractLines contentC6) 0 none).2 =
      some lineC6 ∧
    similarityThreshold ≤
      (bestLoop (normalizeText (str "abcdx?")) (extractLines contentC6) 0 none).1 ∧
    isQuestionAnswered contentC6 lineC6.endIndex = false ∧
    locateOne contentC6 (extractLines contentC6) (str "abcdx?") =
      some ⟨str "abcdx?", lineC6.endIndex⟩ := by
  have hnone : (extractLines contentC6).find? (fun line =>
      containsSub (normalizeText line.text) (normalizeText (str "abcdx?"))) = none := by
    decide
  have hlines : extractLines contentC6 = [lineC6] := by decide
  have hnq : normalizeText (str "abcdx?") = str "abcdx" := by decide
  have hm : mLen (str "abcdx") lineC6 = 5 := by decide
  have hlev : getLevenshteinDistance (str "abcdx") (normalizeText lineC6.text) = 1 := by
    decide
  have hsim : simOf (str "abcdx") lineC6 = 1 - 1 / 5 := by
    rw [simOf, hlev, hm]
    norm_num
  have hbest : bestLoop (str "abcdx") [lineC6] 0 none =
      (simOf (str "abcdx") lineC6, some lineC6) := by
    rw [bestLoop, if_neg (by rw [hm]; exact (by norm_num)),
      if_pos (by rw [hsim]; norm_num)]
    rw [bestLoop]
  have hth : similarityThreshold ≤ simOf (str "abcdx") lineC6 := by
    rw [hsim, similarityThreshold]
    norm_num
  have hans : isQuestionAnswered contentC6 lineC6.endIndex = false := by decide
  have h2 : (bestLoop (normalizeText (str "abcdx?")) (extractLines contentC6) 0 none).2 =
      some lineC6 := by
    rw [hnq, hlines, hbest]
  have h1 : similarityThreshold ≤
      (bestLoop (normalizeText (str "abcdx?")) (extractLines contentC6) 0 none).1 := by
    rw [hnq, hlines, hbest]
    exact hth
  exact ⟨hnone, h2, h1, hans,
    (C6_fallback_similarity contentC6 (extractLines contentC6) (str "abcdx?")
      hnone).2.1 lineC6 h2 h1 hans⟩

/-- The already-answered paragraph following the question paragraph in the
C6 counterexample document. -/
def lineC6b : Line := ⟨str "Answer: e", 19⟩

/-- A document whose first paragraph is near the C6 candidate and is
already followed by an `Answer:` paragraph. -/
def contentC6x : List StructuralElement :=
  [⟨some ⟨[⟨some ⟨str "abcde?\n"⟩⟩], some 1, some 9⟩, some 9⟩,
    ⟨some ⟨[⟨some ⟨str "Answer: e\n"⟩⟩], some 9, some 19⟩, some 19⟩]

/-- C6 counterexample: on `contentC6x` the candidate `abcdx?` has no
substring match, its best fallback similarity is exactly 4/5 ≥ 0.8,
attained at the first paragraph — yet the candidate is NOT resolved but
dropped, because that paragraph's offset is already answered: the original
claim's `resolved exactly when similarity is at least 0.8` is false of the
program. -/
theorem C6_counterexample :
    (extractLines contentC6x).find? (fun line =>
      containsSub (normalizeText line.text) (normalizeText (str "abcdx?"))) = none ∧
    (bestLoop (normalizeText (str "abcdx?")) (extractLines contentC6x) 0 none).2 =
      some lineC6 ∧
    similarityThreshold ≤
      (bestLoop (normalizeText (str "abcdx?")) (extractLines contentC6x) 0 none).1 ∧
    isQuestionAnswered contentC6x lineC6.endIndex = true ∧
    locateOne contentC6x (extractLines contentC6x) (str "abcdx?") = none ∧
    parseQuestions (fun _ => .ok [str "abcdx?"]) contentC6x = [] := by
  have hfind : (extractLines contentC6x).find? (fun line =>
      containsSub (normalizeText line.text) (normalizeText (str "abcdx?"))) = none := by
    decide
  have hlines : extractLines contentC6x = [lineC6, lineC6b] := by decide
  have hnq : normalizeText (str "abcdx?") = str "abcdx" := by decide
  have hm1 : mLen (str "abcdx") lineC6 = 5 := by decide
  have hlev1 : getLevenshteinDistance (str "abcdx") (normalizeText lineC6.text) = 1 := by
    decide
  have hsim1 : simOf (str "abcdx") lineC6 = 1 - 1 / 5 := by
    rw [simOf, hlev1, hm1]
    norm_num
  have hm2 : mLen (str "abcdx") lineC6b = 8 := by decide
  have hlev2 : getLevenshteinDistance (str "abcdx") (normalizeText lineC6b.text) = 7 := by
    decide
  have hsim2 : simOf (str "abcdx") lineC6b = 1 - 7 / 8 := by
    rw [simOf, hlev2, hm2]
    norm_num
  have hbest : bestLoop (str "abcdx") [lineC6, lineC6b] 0 none =
      (simOf (str "abcdx") lineC6, some lineC6) := by
    rw [bestLoop, if_neg (by rw [hm1]; exact (by norm_num)),
      if_pos (by rw [hsim1]; norm_num)]
    rw [bestLoop, if_neg (by rw [hm2]; exact (by norm_num)),
      if_neg (by rw [hsim1, hsim2]; norm_num)]
    rw [bestLoop]
  have hth : similarityThreshold ≤ simOf (str "abcdx") lineC6 := by
    rw [hsim1, similarityThreshold]
    norm_num
  have hans : isQuestionAnswered contentC6x lineC6.endIndex = true := by decide
  have h2 : (bestLoop (normalizeText (str "abcdx?")) (extractLines contentC6x) 0 none).2 =
      some lineC6 := by
    rw [hnq, hlines, hbest]
  have h1 : similarityThreshold ≤
      (bestLoop (normalizeText (str "abcdx?")) (extractLines contentC6x) 0 none).1 := by
    rw [hnq, hlines, hbest]
    exact hth
  have hloc : locateOne contentC6x (extractLines contentC6x) (str "abcdx?") = none := by
    simp only [locateOne, hfind]
    rw [hnq, hlines]
    simp only [hbest]
    rw [if_pos hth]
    simp [hans]
  have hdet : detectQuestions (fun _ => .ok [str "abcdx?"])
      (joinNL ((extractLines contentC6x).map (fun l => l.text))) =
        [str "abcdx?"] := by decide
  refine ⟨hfind, h2, h1, hans, hloc, ?_⟩
  simp only [parseQuestions, hdet]
  simp only [List.filterMap_cons, hloc, List.filterMap_nil]

/-- A document with two identical question paragraphs, both literally
containing the candidate `Why me?`. -/
def contentC7 : List StructuralElement :=
  [⟨some ⟨[⟨some ⟨str "Why me?\n"⟩⟩], some 1, some 9⟩, some 9⟩,
    ⟨some ⟨[⟨some ⟨str "Why me?\n"⟩⟩], some 9, some 17⟩, some 17⟩]

/-- C7 counterexample: the candidate occurs literally in both paragraphs of
`contentC7`, yet the operative locator produces exactly ONE Question entry,
resolved to the first paragraph's offset — not one entry per occurrence. -/
theorem C7_counterexample :
    (∀ l ∈ extractLines contentC7,
      containsSub (normalizeText l.text) (normalizeText (str "Why me?")) = true) ∧
    parseQuestions (fun _ => .ok [str "Why me?"]) contentC7 =
      [⟨str "Why me?", 9⟩] := by decide

/-- C7 (amended): when a candidate question occurs in several paragraphs,
the operative locator produces a single Question entry per candidate,
resolved to the offset of the FIRST paragraph whose normalized text
contains the normalized candidate (the `find?` below), provided that
offset is not already answered; no per-occurrence duplication happens. -/
theorem C7_single_entry_first_match (content : List StructuralElement)
    (lines : List Line) (q : List Char) (l : Line)
    (hfind : lines.find? (fun line =>
      containsSub (normalizeText line.text) (normalizeText q)) = some l)
    (hans : isQuestionAnswered content l.endIndex = false) :
    locateOne content lines q = some ⟨q, l.endIndex⟩ := by
  simp only [locateOne, hfind]
  simp [hans]

/-- C7 witness: the amended statement applied to the counterexample
document: the first matching paragraph is the one at offset 9. -/
theorem C7_witness :
    (extractLines contentC7).find? (fun line =>
      containsSub (normalizeText line.text) (normalizeText (str "Why me?"))) =
        some ⟨str "Why me?", 9⟩ ∧
    isQuestionAnswered contentC7 9 = false ∧
    locateOne contentC7 (extractLines contentC7) (str "Why me?") =
      some ⟨str "Why me?", 9⟩ :=
  ⟨by decide, by decide,
    C7_single_entry_first_match contentC7 (extractLines contentC7)
      (str "Why me?") ⟨str "Why me?", 9⟩ (by decide) (by decide)⟩

theorem chunkLoop_total (ok : Nat → Bool) :
    ∀ (cs : List (List Char)) (t : Nat) (idx : Int),
      (chunkLoop ok cs t idx).2 =
        (((chunkLoop ok cs t idx).1.filter (fun a => a.ok)).map
          (fun a => a.text.length)).sum := by
  intro cs
  induction cs with
  | nil => intro t idx; rfl
  | cons c cs ih =>
    intro t idx
    by_cases h1 : ok t
    · simp only [chunkLoop, h1, if_true]
      simp only [List.filter_cons, List.map_cons, List.sum_cons]
      rw [ih]
      rfl
    · by_cases h2 : ok (t + 1)
      · simp only [chunkLoop, h1, h2, if_true, if_false, Bool.false_eq_true]
        simp only [List.filter_cons, List.map_cons, List.sum_cons]
        rw [ih]
        simp [List.length_cons]
      · simp only [chunkLoop, h1, h2, if_false, Bool.false_eq_true]
        rfl

theorem chunkLoop_recovery (ok : Nat → Bool) :
    ∀ (cs : List (List Char)) (t : Nat) (idx : Int) (i : Nat) (a b : Attempt),
      (chunkLoop ok cs t idx).1[i]? = some a →
      (chunkLoop ok cs t idx).1[i + 1]? = some b →
      a.ok = false → b.offset = a.offset ∧ b.text = '\n' :: a.text := by
  intro cs
  induction cs with
  | nil => intro t idx i a b ha _ _; simp [chunkLoop] at ha
  | cons c cs ih =>
    intro t idx i a b ha hb haok
    by_cases h1 : ok t
    · simp only [chunkLoop, h1, if_true] at ha hb
      cases i with
      | zero =>
        simp only [List.getElem?_cons_zero, Option.some.injEq] at ha
        rw [← ha] at haok
        simp at haok
      | succ j =>
        rw [List.getElem?_cons_succ] at ha hb
        exact ih _ _ j a b ha hb haok
    · by_cases h2 : ok (t + 1)
      · simp only [chunkLoop, h1, h2, if_true, if_false, Bool.false_eq_true]
          at ha hb
        cases i with
        | zero =>
          simp only [List.getElem?_cons_zero, Option.some.injEq] at ha
          simp only [List.getElem?_cons_succ, List.getElem?_cons_zero,
            Option.some.injEq] at hb
          rw [← ha, ← hb]
          exact ⟨rfl, rfl⟩
        | succ j =>
          cases j with
          | zero =>
            simp only [List.getElem?_cons_succ, List.getElem?_cons_zero,
              Option.some.injEq] at ha
            rw [← ha] at haok
            simp at haok
          | succ j' =>
            rw [List.getElem?_cons_succ, List.getElem?_cons_succ] at ha hb
            exact ih _ _ j' a b ha hb haok
      · simp only [chunkLoop, h1, h2, if_false, Bool.false_eq_true] at ha hb
        cases i with
        | zero =>
          simp only [List.getElem?_cons_zero, Option.some.injEq] at ha
          simp only [List.getElem?_cons_succ, List.getElem?_cons_zero,
            Option.some.injEq] at hb
          rw [← ha, ← hb]
          exact ⟨rfl, rfl⟩
        | succ j =>
          cases j with
          | zero => simp at hb
          | succ j' => simp at ha

theorem chunkLoop_abandon (ok : Nat → Bool) :
    ∀ (cs : List (List Char)) (t : Nat) (idx : Int) (i : Nat) (a b : Attempt),
      (chunkLoop ok cs t idx).1[i]? = some a →
      (chunkLoop ok cs t idx).1[i + 1]? = some b →
      a.ok = false → b.ok = false →
      (chunkLoop ok cs t idx).1.length = i + 2 := by
  intro cs
  induction cs with
  | nil => intro t idx i a b ha _ _ _; simp [chunkLoop] at ha
  | cons c cs ih =>
    intro t idx i a b ha hb haok hbok
    by_cases h1 : ok t
    · simp only [chunkLoop, h1, if_true] at ha hb ⊢
      cases i with
      | zero =>
        simp only [List.getElem?_cons_zero, Option.some.injEq] at ha
        rw [← ha] at haok
        simp at haok
      | succ j =>
        rw [List.getElem?_cons_succ] at ha hb
        rw [List.length_cons, ih _ _ j a b ha hb haok hbok]
    · by_cases h2 : ok (t + 1)
      · simp only [chunkLoop, h1, h2, if_true, if_false, Bool.false_eq_true]
          at ha hb ⊢
        cases i with
        | zero =>
          simp only [List.getElem?_cons_succ, List.getElem?_cons_zero,
            Option.some.injEq] at hb
          rw [← hb] at hbok
          simp at hbok
        | succ j =>
          cases j with
          | zero =>
            simp only [List.getElem?_cons_succ, List.getElem?_cons_zero,
              Option.some.injEq] at ha
            rw [← ha] at haok
            simp at haok
          | succ j' =>
            rw [List.getElem?_cons_succ, List.getElem?_cons_succ] at ha hb
            rw [List.length_cons, List.length_cons,
              ih _ _ j' a b ha hb haok hbok]
      · simp only [chunkLoop, h1, h2, if_false, Bool.false_eq_true] at ha hb ⊢
        cases i with
        | zero => rfl
        | succ j =>
          cases j with
          | zero => simp at hb
          | succ j' => simp at ha

/-- C3: in the insertion driver, the committed character count equals the
total length of exactly the successfully inserted texts; whenever a call
fails and another call follows, that next call retries the same chunk
prefixed with a newline at the same offset; and when a failure is followed
by another failure, the attempt sequence ends there — the remaining chunks
are abandoned with no rollback. -/
theorem C3_insertion_driver (ok : Nat → Bool) (idx : Int) (text : List Char) :
    ((simulateTypingAndInsert ok idx text).2 =
      (((simulateTypingAndInsert ok idx text).1.filter (fun a => a.ok)).map
        (fun a => a.text.length)).sum) ∧
    (∀ i a b, (simulateTypingAndInsert ok idx text).1[i]? = some a →
      (simulateTypingAndInsert ok idx text).1[i + 1]? = some b →
      a.ok = false → b.offset = a.offset ∧ b.text = '\n' :: a.text) ∧
    (∀ i a b, (simulateTypingAndInsert ok idx text).1[i]? = some a →
      (simulateTypingAndInsert ok idx text).1[i + 1]? = some b →
      a.ok = false → b.ok = false →
      (simulateTypingAndInsert ok idx text).1.length = i + 2) :=
  ⟨chunkLoop_total ok (chunkWords (splitSpace text)) 0 idx,
    fun i a b => chunkLoop_recovery ok (chunkWords (splitSpace text)) 0 idx i a b,
    fun i a b => chunkLoop_abandon ok (chunkWords (splitSpace text)) 0 idx i a b⟩

/-- Oracle failing exactly the second batchUpdate call, whose recovery
succeeds. -/
def okC3 : Nat → Bool := fun t => t != 1

/-- Oracle for which the second chunk's original call and its recovery both
fail. -/
def okC3f : Nat → Bool := fun t => t == 0

/-- C3 witness: on the answer `a b c d e f g` (two chunks) with the failing
second call, the theorem's three conclusions hold at the concrete inputs:
the committed count matches the successful texts, the recovery retries the
newline-prefixed chunk at the same offset, and the double failure ends the
attempt sequence at length three. -/
theorem C3_witness :
    ((simulateTypingAndInsert okC3 5 (str "a b c d e f g")).2 =
      (((simulateTypingAndInsert okC3 5 (str "a b c d e f g")).1.filter
        (fun a => a.ok)).map (fun a => a.text.length)).sum) ∧
    ((⟨15, str "\nf g ", true⟩ : Attempt).offset =
        (⟨15, str "f g ", false⟩ : Attempt).offset ∧
      (⟨15, str "\nf g ", true⟩ : Attempt).text =
        '\n' :: (⟨15, str "f g ", false⟩ : Attempt).text) ∧
    (simulateTypingAndInsert okC3f 5 (str "a b c d e f g")).1.length = 1 + 2 :=
  ⟨(C3_insertion_driver okC3 5 (str "a b c d e f g")).1,
    (C3_insertion_driver okC3 5 (str "a b c d e f g")).2.1 1
      ⟨15, str "f g ", false⟩ ⟨15, str "\nf g ", true⟩
      (by decide) (by decide) (by decide),
    (C3_insertion_driver okC3f 5 (str "a b c d e f g")).2.2 1
      ⟨15, str "f g ", false⟩ ⟨15, str "\nf g ", false⟩
      (by decide) (by decide) (by decide) (by decide)⟩

/-- The offset law of claim C1, phrased over the records of one batch:
each record's actual offset is its question's `endIndex` minus one plus
the running sum `s` of characters inserted by all earlier records. -/
def offsetsOk : Int → List InsRec → Prop
  | _, [] => True
  | s, r :: rs => r.offset = r.q.endIndex - 1 + s ∧ offsetsOk (s + r.inserted) rs

theorem processLoop_offsetsOk (gen : Nat → List Char → Option (List Char))
    (ins : Nat → Int → List Char → Nat) :
    ∀ (qs : List Line) (k : Nat) (cum : Int),
      offsetsOk cum (processLoop gen ins qs k cum).1 := by
  intro qs
  induction qs with
  | nil => intro k cum; exact trivial
  | cons q qs ih =>
    intro k cum
    match hg : gen k q.text with
    | none =>
      simp only [processLoop, hg]
      exact ih (k + 1) cum
    | some answer =>
      simp only [processLoop, hg]
      by_cases hidx : q.endIndex - 1 + cum < 0
      · rw [if_pos hidx]
        exact ih (k + 1) cum
      · rw [if_neg hidx]
        exact ⟨rfl, ih (k + 1) _⟩

theorem processLoop_sublist (gen : Nat → List Char → Option (List Char))
    (ins : Nat → Int → List Char → Nat) :
    ∀ (qs : List Line) (k : Nat) (cum : Int),
      List.Sublist ((processLoop gen ins qs k cum).1.map (fun r => r.q)) qs := by
  intro qs
  induction qs with
  | nil => intro k cum; simp [processLoop]
  | cons q qs ih =>
    intro k cum
    match hg : gen k q.text with
    | none =>
      simp only [processLoop, hg]
      exact (ih (k + 1) cum).cons q
    | some answer =>
      simp only [processLoop, hg]
      by_cases hidx : q.endIndex - 1 + cum < 0
      · rw [if_pos hidx]
        exact (ih (k + 1) cum).cons q
      · rw [if_neg hidx]
        simp only [List.map_cons]
        exact (ih (k + 1) _).cons₂ q

theorem processLoop_offset_lb (gen : Nat → List Char → Option (List Char))
    (ins : Nat → Int → List Char → Nat) :
    ∀ (qs : List Line) (k : Nat) (cum b e : Int),
      b ≤ cum → (∀ q' ∈ qs, e ≤ q'.endIndex) →
      ∀ r ∈ (processLoop gen ins qs k cum).1, e - 1 + b ≤ r.offset := by
  intro qs
  induction qs with
  | nil => intro k cum b e _ _ r hr; simp [processLoop] at hr
  | cons q qs ih =>
    intro k cum b e hb he r hr
    match hg : gen k q.text with
    | none =>
      simp only [processLoop, hg] at hr
      exact ih (k + 1) cum b e hb (fun q' hq' => he q' (List.mem_cons_of_mem _ hq')) r hr
    | some answer =>
      simp only [processLoop, hg] at hr
      by_cases hidx : q.endIndex - 1 + cum < 0
      · rw [if_pos hidx] at hr
        exact ih (k + 1) cum b e hb (fun q' hq' => he q' (List.mem_cons_of_mem _ hq')) r hr
      · rw [if_neg hidx] at hr
        rcases List.mem_cons.mp hr with hrr | hrr
        · subst hrr
          have h1 : e ≤ q.endIndex := he q (List.mem_cons_self _ _)
          simp only []
          omega
        · have hb' : b ≤ cum + (ins k (q.endIndex - 1 + cum)
              (str "\nAnswer: " ++ answer ++ str "\n") : Int) :=
            le_trans hb (le_add_of_nonneg_right (Int.natCast_nonneg _))
          exact ih (k + 1) _ b e hb'
            (fun q' hq' => he q' (List.mem_cons_of_mem _ hq')) r hrr

theorem processLoop_chain_offsets (gen : Nat → List Char → Option (List Char))
    (ins : Nat → Int → List Char → Nat) :
    ∀ (qs : List Line) (k : Nat) (cum : Int), List.Pairwise endLe qs →
      List.Chain' (fun r s => r.offset ≤ s.offset)
        (processLoop gen ins qs k cum).1 := by
  intro qs
  induction qs with
  | nil => intro k cum _; simp [processLoop]
  | cons q qs ih =>
    intro k cum hp
    have hp' := List.pairwise_cons.mp hp
    match hg : gen k q.text with
    | none =>
      simp only [processLoop, hg]
      exact ih (k + 1) cum hp'.2
    | some answer =>
      simp only [processLoop, hg]
      by_cases hidx : q.endIndex - 1 + cum < 0
      · rw [if_pos hidx]
        exact ih (k + 1) cum hp'.2
      · rw [if_neg hidx]
        refine List.chain'_cons'.mpr ⟨?_, ih (k + 1) _ hp'.2⟩
        intro y hy
        have hy' := List.mem_of_mem_head? hy
        have hlb := processLoop_offset_lb gen ins qs (k + 1)
          (cum + (ins k (q.endIndex - 1 + cum)
            (str "\nAnswer: " ++ answer ++ str "\n") : Int)) cum q.endIndex
          (le_add_of_nonneg_right (Int.natCast_nonneg _))
          (fun q' hq' => hp'.1 q' hq') y hy'
        exact hlb

/-- C1: with the questions sorted by ascending `endIndex`, the batch loop
handles them in non-decreasing `endIndex` order; every performed
insertion's actual offset equals its question's `endIndex` minus one plus
the sum of `charactersInserted` over all previously performed insertions
of the batch (`offsetsOk 0`); and consequently the actual offsets are
non-decreasing in processing order. -/
theorem C1_offset_reconciliation (gen : Nat → List Char → Option (List Char))
    (ins : Nat → Int → List Char → Nat) (qs : List Line) :
    offsetsOk 0 (processLoop gen ins (sortQuestions qs) 0 0).1 ∧
    List.Chain' (fun r s => r.q.endIndex ≤ s.q.endIndex)
      (processLoop gen ins (sortQuestions qs) 0 0).1 ∧
    List.Chain' (fun r s => r.offset ≤ s.offset)
      (processLoop gen ins (sortQuestions qs) 0 0).1 := by
  have hsorted : List.Pairwise endLe (sortQuestions qs) :=
    List.sorted_insertionSort endLe qs
  refine ⟨processLoop_offsetsOk gen ins _ 0 0, ?_,
    processLoop_chain_offsets gen ins _ 0 0 hsorted⟩
  have hsub := processLoop_sublist gen ins (sortQuestions qs) 0 0
  have hpw1 : List.Pairwise endLe
      ((processLoop gen ins (sortQuestions qs) 0 0).1.map (fun r => r.q)) :=
    List.Pairwise.sublist hsub hsorted
  have hpw : List.Pairwise (fun r s : InsRec => endLe r.q s.q)
      (processLoop gen ins (sortQuestions qs) 0 0).1 :=
    List.pairwise_map.mp hpw1
  exact hpw.chain'

theorem processLoop_offsets_nonneg (gen : Nat → List Char → Option (List Char))
    (ins : Nat → Int → List Char → Nat) :
    ∀ (qs : List Line) (k : Nat) (cum : Int),
      ∀ r ∈ (processLoop gen ins qs k cum).1, 0 ≤ r.offset := by
  intro qs
  induction qs with
  | nil => intro k cum r hr; simp [processLoop] at hr
  | cons q qs ih =>
    intro k cum r hr
    match hg : gen k q.text with
    | none =>
      simp only [processLoop, hg] at hr
      exact ih (k + 1) cum r hr
    | some answer =>
      simp only [processLoop, hg] at hr
      by_cases hidx : q.endIndex - 1 + cum < 0
      · rw [if_pos hidx] at hr
        exact ih (k + 1) cum r hr
      · rw [if_neg hidx] at hr
        rcases List.mem_cons.mp hr with hrr | hrr
        · subst hrr
          simp only []
          omega
        · exact ih (k + 1) _ r hrr

/-- C9: a question whose adjusted insertion index `endIndex - 1 + cum` is
negative is skipped: the loop continues with the remaining questions, the
cumulative offset unchanged and no record produced for it; and no record
of any batch ever carries a negative offset, so an insertion at a negative
offset is never attempted. -/
theorem C9_negative_offset_skip (gen : Nat → List Char → Option (List Char))
    (ins : Nat → Int → List Char → Nat) (q : Line) (qs : List Line)
    (k : Nat) (cum : Int) :
    (q.endIndex - 1 + cum < 0 →
      processLoop gen ins (q :: qs) k cum = processLoop gen ins qs (k + 1) cum) ∧
    (∀ r ∈ (processLoop gen ins qs k cum).1, 0 ≤ r.offset) := by
  constructor
  · intro hneg
    match hg : gen k q.text with
    | none => simp only [processLoop, hg]
    | some answer =>
      simp only [processLoop, hg]
      rw [if_pos hneg]
  · exact processLoop_offsets_nonneg gen ins qs k cum

/-- The generator and driver stubs of the C9 witness. -/
def genC9 : Nat → List Char → Option (List Char) := fun _ _ => some (str "4")

def insC9 : Nat → Int → List Char → Nat := fun _ _ _ => 0

/-- C9 witness: a question with `endIndex` 0 makes the adjusted index
negative at cumulative offset 0; the theorem applies and the loop skips
it, ending with no records and the cumulative offset still 0. -/
theorem C9_witness :
    processLoop genC9 insC9 [⟨str "Q?", 0⟩] 0 0 =
      processLoop genC9 insC9 [] 1 0 ∧
    processLoop genC9 insC9 [⟨str "Q?", 0⟩] 0 0 = ([], 0) :=
  ⟨(C9_negative_offset_skip genC9 insC9 ⟨str "Q?", 0⟩ [] 0 0).1 (by decide),
    by decide⟩

/-- The one-paragraph Scenario B document: `What is 2+2?` spanning indices
1 to 14. -/
def contentC2 : List StructuralElement :=
  [⟨some ⟨[⟨some ⟨str "What is 2+2?\n"⟩⟩], some 1, some 14⟩, some 14⟩]

/-- Detector stub returning exactly the Scenario B question. -/
def apiC2 : List Char → Except Unit (List (List Char)) :=
  fun _ => .ok [str "What is 2+2?"]

/-- Answer-generator stub returning `4`. -/
def genC2 : Nat → List Char → Option (List Char) := fun _ _ => some (str "4")

/-- Insertion driver with every batchUpdate call succeeding. -/
def insC2 : Nat → Int → List Char → Nat :=
  fun _ idx t => (simulateTypingAndInsert (fun _ => true) idx t).2

/-- C2 counterexample: in Scenario B the plan has exactly one question and
the insertion is fully successful, yet the final cumulativeOffset is 12,
not the length 11 of the string `\nAnswer: 4\n` claimed: the driver
appends a trailing space to the chunk it sends. -/
theorem C2_counterexample :
    (str "\nAnswer: 4\n").length = 11 ∧
    (processLoop genC2 insC2 (sortQuestions (parseQuestions apiC2 contentC2)) 0 0).2
      = 12 ∧
    ¬((processLoop genC2 insC2
        (sortQuestions (parseQuestions apiC2 contentC2)) 0 0).2 = 11) := by
  decide

/-- C2 (amended): for the Scenario B document, detector and generator, the
plan contains exactly one Question, inserted at the paragraph's end offset
minus one (14 - 1 = 13); after the fully successful insertion the
cumulative offset equals the length of `\nAnswer: 4\n` plus the one
trailing space the driver appends to the final chunk — 12 characters. -/
theorem C2_scenarioB :
    parseQuestions apiC2 contentC2 = [⟨str "What is 2+2?", 14⟩] ∧
    (processLoop genC2 insC2 (sortQuestions (parseQuestions apiC2 contentC2)) 0 0).1
      = [⟨⟨str "What is 2+2?", 14⟩, 14 - 1, str "\nAnswer: 4\n",
          (str "\nAnswer: 4\n").length + 1⟩] ∧
    (processLoop genC2 insC2 (sortQuestions (parseQuestions apiC2 contentC2)) 0 0).2
      = (str "\nAnswer: 4\n").length + 1 := by
  decide

/-- C8: the approval check returns `false` whenever the ownership lookup
fails (fails closed), and any request whose approval check returns `false`
is rejected with the denial outcome before any document access: the route
produces no insertion records at all. -/
theorem C8_approval_gate (approvedEmails : List (List Char))
    (lookup : Except Unit (Option (List Owner)))
    (fetched : Except Unit (List StructuralElement))
    (api : List Char → Except Unit (List (List Char)))
    (gen : Nat → List Char → Option (List Char))
    (ins : Nat → Int → List Char → Nat) :
    (∀ e : Unit, isDocumentOwnerApproved approvedEmails (.error e) = false) ∧
    (isDocumentOwnerApproved approvedEmails lookup = false →
      processRoute approvedEmails lookup fetched api gen ins =
        (.denied, [], 0)) := by
  constructor
  · intro e; rfl
  · intro h
    simp [processRoute, h]

/-- C8 witness: with an erroring ownership lookup the approval check is
`false` and the route denies the request with no insertion records. -/
theorem C8_witness :
    isDocumentOwnerApproved [] (.error ()) = false ∧
    processRoute [] (.error ()) (.ok []) (fun _ => .ok [])
      (fun _ _ => none) (fun _ _ _ => 0) = (.denied, [], 0) :=
  ⟨(C8_approval_gate [] (.error ()) (.ok []) (fun _ => .ok [])
      (fun _ _ => none) (fun _ _ _ => 0)).1 (),
    (C8_approval_gate [] (.error ()) (.ok []) (fun _ => .ok [])
      (fun _ _ => none) (fun _ _ _ => 0)).2 (by decide)⟩

end GDoc
